import Mathlib

/-!
Shallow embedding of the phire chart timing/animation core: the RPE parser's
speed integration (`src/phire/src/parse/rpe.rs`), the note cache and update
logic (`src/phire/src/core/line.rs`) and the chart scheduler
(`src/phire/src/core/chart.rs`).  `f32` arithmetic is embedded as exact `ℚ`
arithmetic.  Core modules that the sources only import (the animation curve,
tween table, bpm list, note entity) are modelled from the specification; each
such definition carries a doc comment starting with `Modelled from the spec`.
-/

/-- Tween descriptor carried by a keyframe: either a static tween-function id
(the `id` of `StaticTween::get_rc(id)` / the third argument of
`Keyframe::new`), or `ClampedTween::new(id, lo..hi)` restricting the base
function to a sub-range. -/
inductive Tween where
  | static (id : ℕ)
  | clamped (id : ℕ) (lo hi : ℚ)
deriving DecidableEq

/-- Keyframe of an animation curve: `Keyframe { time, value, tween }`. -/
structure Keyframe where
  time : ℚ
  value : ℚ
  tween : Tween
deriving DecidableEq

instance : Inhabited Keyframe := ⟨⟨0, 0, .static 0⟩⟩

/-- Modelled from the spec: the small epsilon `EPS` of the core module ("values
within a small epsilon of each other", §4.3); only its positivity and small
size matter to the claims. -/
def EPS : ℚ := 1 / 100000

/-- Modelled from the spec: the `HEIGHT_RATIO` unit constant of the missing
core module; only its sign matters to the claims. -/
def height_ratio : ℚ := 5 / 6

/-- Source `rpe.rs` line 23: `const SPEED_RATIO: f32 = 10. / 45. / HEIGHT_RATIO;`. -/
def speed_ratio : ℚ := 10 / 45 / height_ratio

/-- Modelled from the spec: the base tween functions by numeric id as consumed
by the embedded code: 0 = hold (`x |-> 0`, see the source comment "Hold tween
(x |-> 0)" in `rpe.rs`), 2 = linear (`x |-> x`, "Linear tween (x |-> x)"),
6 = quadIn, 7 = quadOut (the ids named in the `rpe.rs` comments). -/
def baseTween : ℕ → ℚ → ℚ
  | 0, _ => 0
  | 2, x => x
  | 6, x => x * x
  | 7, x => 1 - (1 - x) * (1 - x)
  | _, x => x

/-- Modelled from the spec: tween evaluation; a clamped tween restricts the
base function to `[lo, hi]` and renormalises ("an ease-out curve restricted to
the sub-range", §4.3). -/
def Tween.eval : Tween → ℚ → ℚ
  | .static i, x => baseTween i x
  | .clamped i lo hi, x =>
      (baseTween i (lo + x * (hi - lo)) - baseTween i lo) /
        (baseTween i hi - baseTween i lo)

/-- Modelled from the spec (§4.2): interpolation across a bracketing keyframe
pair — the bracket's tween applied to the normalised progress, then
`Tweenable::tween` (linear interpolation) of the two values. -/
def interp (k1 k2 : Keyframe) (t : ℚ) : ℚ :=
  k1.value + (k2.value - k1.value) * k1.tween.eval ((t - k1.time) / (k2.time - k1.time))

/-- Modelled from the spec (§4.2): `evaluate(t, limit = right)`, the value
produced by `set_time(t); now()`.  Before the first keyframe the first value,
after the last the last value; at a duplicated keyframe time the outgoing
value.  The empty curve (`AnimFloat::default()`) evaluates to 0. -/
def evalR : List Keyframe → ℚ → ℚ
  | [], _ => 0
  | [k], _ => k.value
  | k1 :: k2 :: rest, t =>
      if t < k1.time then k1.value
      else if t < k2.time then interp k1 k2 t
      else evalR (k2 :: rest) t

/-- Modelled from the spec (§4.2): `evaluate(t, limit = left)`, the value
produced by `set_time(t); set_previous(); now()`; at a duplicated keyframe
time the incoming value. -/
def evalL : List Keyframe → ℚ → ℚ
  | [], _ => 0
  | [k], _ => k.value
  | k1 :: k2 :: rest, t =>
      if t ≤ k1.time then k1.value
      else if t ≤ k2.time then interp k1 k2 t
      else evalL (k2 :: rest) t

/-- Modelled from the spec (§4.2): `Anim::chain` — the chained curve's value at
`t` is the sum of the layer curves' values at `t` (right limit). -/
def chainEvalR (layers : List (List Keyframe)) (t : ℚ) : ℚ :=
  (layers.map (evalR · t)).sum

/-- Modelled from the spec (§4.2): chained evaluation, left limit. -/
def chainEvalL (layers : List (List Keyframe)) (t : ℚ) : ℚ :=
  (layers.map (evalL · t)).sum

/-- Modelled from the spec (§4.2): `map_value(|v| v * c)` applied to a
keyframe list — the `* SPEED_RATIO` unit scaling of `parse_speed_events`. -/
def scaleKfs (c : ℚ) (l : List Keyframe) : List Keyframe :=
  l.map fun k => ⟨k.time, k.value * c, k.tween⟩

/-- Modelled from the spec (§6): a beat triple `[beat, num, den]` meaning
`beat + num/den` beats. -/
structure Triple where
  beat : ℤ
  num : ℤ
  den : ℤ
deriving DecidableEq

/-- Modelled from the spec: `Triple::beats()`. -/
def Triple.beats (t : Triple) : ℚ := (t.beat : ℚ) + (t.num : ℚ) / (t.den : ℚ)

/-- Tempo breakpoint `(beat, bpm)` of a `BpmList`. -/
structure BpmItem where
  beat : ℚ
  bpm : ℚ
deriving DecidableEq

/-- Modelled from the spec (§4.1): the tempo breakpoint table. -/
structure BpmList where
  items : List BpmItem
deriving DecidableEq

/-- Modelled from the spec (§4.1): seconds accumulated from breakpoint `cur`
onwards, walking the remaining breakpoints whose beat does not exceed the
queried position, each segment advancing `60/bpm` seconds per beat. -/
def timeBeatsFrom (cur : BpmItem) : List BpmItem → ℚ → ℚ
  | [], b => (b - cur.beat) * 60 / cur.bpm
  | nxt :: rest, b =>
      if nxt.beat ≤ b then (nxt.beat - cur.beat) * 60 / cur.bpm + timeBeatsFrom nxt rest b
      else (b - cur.beat) * 60 / cur.bpm

/-- Modelled from the spec (§4.1): `BpmList::time_beats`. -/
def BpmList.timeBeats : BpmList → ℚ → ℚ
  | ⟨[]⟩, _ => 0
  | ⟨x :: rest⟩, b => timeBeatsFrom x rest b

/-- Modelled from the spec (§4.1): `BpmList::time` on a beat triple. -/
def BpmList.time (r : BpmList) (t : Triple) : ℚ := r.timeBeats t.beats

/-- Source `rpe.rs` lines 54-61: `RPESpeedEvent { start_time, end_time, start,
end }` (the `end` field is called `endVal` because `end` is reserved). -/
structure RPESpeedEvent where
  start_time : Triple
  end_time : Triple
  start : ℚ
  endVal : ℚ
deriving DecidableEq

/-- Source `rpe.rs` lines 63-71: `RPEEventLayer`; only the `speed_events`
field is consumed by the functions embedded here — the four transform-event
fields never reach them. -/
structure RPEEventLayer where
  speed_events : Option (List RPESpeedEvent)
deriving DecidableEq

/-- Source `rpe.rs` lines 165-177: the per-layer speed keyframes — for each
event a start keyframe with tween id 2 at the converted start time and an end
keyframe with tween id 0 at the converted end time. -/
def speedLayerKfs (r : BpmList) (events : List RPESpeedEvent) : List Keyframe :=
  events.flatMap fun e =>
    [⟨r.timeBeats e.start_time.beats, e.start, .static 2⟩,
     ⟨r.timeBeats e.end_time.beats, e.endVal, .static 0⟩]

/-- Rust `Vec::dedup`: removal of consecutive duplicates. -/
def dedupAdj : List ℚ → List ℚ
  | [] => []
  | [x] => [x]
  | x :: y :: rest => if x = y then dedupAdj (y :: rest) else x :: dedupAdj (y :: rest)

/-- Adjacent pairs `(l[i], l[i+1])`, the pairs visited by the integration
loops `for i in 0..(pts.len() - 1)`. -/
def adjPairs : List ℚ → List (ℚ × ℚ)
  | x :: y :: rest => (x, y) :: adjPairs (y :: rest)
  | _ => []

/-- Rust `f32::signum` as used on finite speeds: `1` for nonnegative values
(Rust's `signum` of `+0.0` is `1.0`), `-1` for negative ones. -/
def rustSignum (q : ℚ) : ℚ := if q < 0 then -1 else 1

/-- Modelled from the spec: `f32::tween(&x, &y, t)`, linear interpolation. -/
def lerp (x y t : ℚ) : ℚ := x + (y - x) * t

/-- Source `rpe.rs` lines 160-177: the speed-event layers present on a judge
line (the `filter_map` over `speed_events`), as keyframe lists. -/
def speedLayers (r : BpmList) (rpe : List RPEEventLayer) : List (List Keyframe) :=
  (rpe.filterMap (·.speed_events)).map (speedLayerKfs r)

/-- Source `rpe.rs` lines 182-183: the chained speed curve after the
`map_value(|v| v * SPEED_RATIO)` unit scaling, kept as its layers. -/
def scaledLayers (r : BpmList) (rpe : List RPEEventLayer) : List (List Keyframe) :=
  (speedLayers r rpe).map (scaleKfs speed_ratio)

/-- Source `rpe.rs` lines 178-181: every keyframe time of every layer plus the
chart end time, sorted and deduplicated. -/
def origPts (r : BpmList) (rpe : List RPEEventLayer) (max_time : ℚ) : List ℚ :=
  dedupAdj (List.insertionSort (· ≤ ·)
    (((speedLayers r rpe).flatMap (·.map (·.time))) ++ [max_time]))

/-- Source `rpe.rs` lines 184-195: the single pass over the adjacent pairs of
`pts` (the loop range is computed before the loop body runs, so pushed points
are appended, never revisited), collecting the linearly interpolated zero
crossing of every pair whose sampled speeds have a negative signum product. -/
def insertedPts (layers : List (List Keyframe)) (pts : List ℚ) : List ℚ :=
  (adjPairs pts).filterMap fun pq =>
    let speed := chainEvalR layers pq.1
    let end_speed := chainEvalL layers pq.2
    if rustSignum speed * rustSignum end_speed < 0 then
      some (lerp pq.1 pq.2 (speed / (speed - end_speed)))
    else none

/-- Source `rpe.rs` lines 196-197: the breakpoints after zero-crossing
insertion, sorted and deduplicated again. -/
def finalPts (r : BpmList) (rpe : List RPEEventLayer) (max_time : ℚ) : List ℚ :=
  dedupAdj (List.insertionSort (· ≤ ·)
    (origPts r rpe max_time ++ insertedPts (scaledLayers r rpe) (origPts r rpe max_time)))

/-- Source `rpe.rs` lines 198-226: the displacement keyframes — one per
interval start carrying the running trapezoidal total and the interpolation
kind chosen from the sampled speeds — together with the final accumulated
height. -/
def heightKfs (layers : List (List Keyframe)) : List ℚ → ℚ → List Keyframe × ℚ
  | p :: q :: rest, height =>
      let speed := chainEvalR layers p
      let end_speed := chainEvalL layers q
      let kf : Keyframe :=
        if |speed - end_speed| < EPS then ⟨p, height, .static 2⟩
        else if |speed| > |end_speed| then ⟨p, height, .clamped 7 0 (1 - end_speed / speed)⟩
        else ⟨p, height, .clamped 6 (speed / end_speed) 1⟩
      let hk := heightKfs layers (q :: rest) (height + (speed + end_speed) * (q - p) / 2)
      (kf :: hk.1, hk.2)
  | _, height => ([], height)

/-- Source `rpe.rs` lines 159-229: `parse_speed_events`.  With no speed-event
layer at all the default (empty) curve is returned; otherwise the displacement
keyframes over the final breakpoints, closed by a keyframe at `max_time`
holding the total height. -/
def parse_speed_events (r : BpmList) (rpe : List RPEEventLayer) (max_time : ℚ) :
    List Keyframe :=
  if (rpe.filterMap (·.speed_events)).isEmpty then []
  else
    let hk := heightKfs (scaledLayers r rpe) (finalPts r rpe max_time) 0
    hk.1 ++ [⟨max_time, hk.2, .static 0⟩]

/-- Modelled from the spec (§3): the judge status set `{NotJudged, Judged}`;
only the external judging collaborator ever sets `Judged`. -/
inductive JudgeStatus where
  | notJudged
  | judged
deriving DecidableEq

/-- Note kind as constructed by the parser: `Click`,
`Hold { end_time, end_height, end_speed }`, `Flick`, `Drag`. -/
inductive NoteKind where
  | click
  | hold (end_time : ℚ) (end_height : ℚ) (end_speed : Option ℚ)
  | flick
  | drag
deriving DecidableEq

/-- The note entity, restricted to the fields the embedded functions consume:
`kind`, scheduled `time`, `height`, `speed`, `above`, the fixed y value of
`object.translation.1` (every note's translation is `AnimFloat::fixed`, so its
`now()` is this constant), the judge status and the protected flag (named
`protectedFlag` because `protected` is reserved). -/
structure Note where
  kind : NoteKind
  time : ℚ
  height : ℚ
  speed : ℚ
  above : Bool
  yTranslation : ℚ
  judge : JudgeStatus
  protectedFlag : Bool
deriving DecidableEq

instance : Inhabited Note := ⟨⟨.click, 0, 0, 0, true, 0, .notJudged, false⟩⟩

/-- Modelled from the spec (§3): `Note::dead` (its body lives in the core
module absent from the sources) — `Click|Flick|Drag ⇒ Judged`;
`Hold ⇒ Judged ∧ current_time ≥ end_time`. -/
def Note.dead (t : ℚ) (n : Note) : Bool :=
  match n.kind with
  | .hold et _ _ => decide (n.judge = .judged) && decide (et ≤ t)
  | _ => decide (n.judge = .judged)

/-- Source `line.rs` lines 86-91: the three derived index views of a judge
line's note cache. -/
structure JudgeLineCache where
  update_order : List ℕ
  above_indices : List ℕ
  below_indices : List ℕ
deriving DecidableEq

/-- Source `line.rs`, the inner `loop` of `reset`: starting right after
`index`, advance while the note at the cursor satisfies `cond`; the result is
the first position where `cond` fails or the list ends.  The structural `fuel`
argument renders the `loop` as a total function and is always instantiated to
at least the list length, which the cursor can never out-run. -/
def runEnd (notes : List Note) (cond : Note → Bool) : ℕ → ℕ → ℕ
  | 0, index => index + 1
  | fuel + 1, index =>
      let j := index + 1
      match notes.get? j with
      | some n => if cond n then runEnd notes cond fuel j else j
      | none => j

/-- Source `line.rs` lines 116-126: the first `while` of `reset`, one pushed
pointer per contiguous run of `above` notes sharing a speed; stops at the
first non-`above` note.  Returns the pointers and the stopping index. -/
def aboveLoop (notes : List Note) : ℕ → ℕ → List ℕ × ℕ
  | 0, index => ([], index)
  | fuel + 1, index =>
      match notes.get? index with
      | some n =>
          if n.above then
            let next := runEnd notes (fun it => it.above && decide (it.speed = n.speed))
              notes.length index
            let rest := aboveLoop notes fuel next
            (index :: rest.1, rest.2)
          else ([], index)
      | none => ([], index)

/-- Source `line.rs` lines 127-136: the second `while` of `reset`, one pushed
pointer per contiguous run of notes sharing a speed (the `above` flag is not
consulted here), until the index reaches the list length. -/
def belowLoop (notes : List Note) : ℕ → ℕ → List ℕ
  | 0, _ => []
  | fuel + 1, index =>
      if index = notes.length then []
      else
        index :: belowLoop notes fuel
          (runEnd notes (fun it => decide (it.speed = (notes.getD index default).speed))
            notes.length index)

/-- Source `line.rs` lines 112-137: `JudgeLineCache::reset` — `update_order`
becomes the full index range, then the two run-pointer views are rebuilt from
the notes in their current order. -/
def JudgeLineCache.reset (notes : List Note) : JudgeLineCache :=
  let ab := aboveLoop notes (notes.length + 1) 0
  ⟨List.range notes.length, ab.1, belowLoop notes (notes.length + 1) ab.2⟩

/-- Sort key of `JudgeLineCache::new` (source `line.rs` lines 95-101):
`(!above, speed, height + translation.1.now() * speed)`, with the Bool encoded
as 0/1 so that `false < true` as in Rust. -/
def noteKey (n : Note) : ℕ × ℚ × ℚ :=
  ((if n.above then 0 else 1), n.speed, n.height + n.yTranslation * n.speed)

/-- Lexicographic Bool-valued comparison of triples, Rust's derived
`Ord` on the sort-key tuple. -/
def lex3 (x y : ℕ × ℚ × ℚ) : Bool :=
  decide (x.1 < y.1) ||
    (decide (x.1 = y.1) &&
      (decide (x.2.1 < y.2.1) ||
        (decide (x.2.1 = y.2.1) && decide (x.2.2 ≤ y.2.2))))

/-- The relation `sort_by_key` sorts by. -/
def noteKeyLE (a b : Note) : Prop := lex3 (noteKey a) (noteKey b) = true

instance : DecidableRel noteKeyLE := fun a b => by unfold noteKeyLE; infer_instance

instance : IsTotal Note noteKeyLE := by
  constructor
  intro a b
  simp only [noteKeyLE, lex3, Bool.or_eq_true, Bool.and_eq_true, decide_eq_true_eq]
  rcases lt_trichotomy (noteKey a).1 (noteKey b).1 with h | h | h
  · exact Or.inl (Or.inl h)
  · rcases lt_trichotomy (noteKey a).2.1 (noteKey b).2.1 with h2 | h2 | h2
    · exact Or.inl (Or.inr ⟨h, Or.inl h2⟩)
    · rcases le_total (noteKey a).2.2 (noteKey b).2.2 with h3 | h3
      · exact Or.inl (Or.inr ⟨h, Or.inr ⟨h2, h3⟩⟩)
      · exact Or.inr (Or.inr ⟨h.symm, Or.inr ⟨h2.symm, h3⟩⟩)
    · exact Or.inr (Or.inr ⟨h.symm, Or.inl h2⟩)
  · exact Or.inr (Or.inl h)

instance : IsTrans Note noteKeyLE := by
  constructor
  intro a b c hab hbc
  simp only [noteKeyLE, lex3, Bool.or_eq_true, Bool.and_eq_true, decide_eq_true_eq] at *
  rcases hab with h1 | ⟨h1, h2⟩ <;> rcases hbc with g1 | ⟨g1, g2⟩
  · exact Or.inl (h1.trans g1)
  · exact Or.inl (g1 ▸ h1)
  · exact Or.inl (h1 ▸ g1)
  · refine Or.inr ⟨h1.trans g1, ?_⟩
    rcases h2 with h2 | ⟨h2, h3⟩ <;> rcases g2 with g2 | ⟨g2, g3⟩
    · exact Or.inl (h2.trans g2)
    · exact Or.inl (g2 ▸ h2)
    · exact Or.inl (h2 ▸ g2)
    · exact Or.inr ⟨h2.trans g2, h3.trans g3⟩

/-- Source `line.rs` lines 95-101: the `sort_by_key` call of
`JudgeLineCache::new` (Rust's sort is stable, as is `insertionSort`). -/
def sortNotes (notes : List Note) : List Note := List.insertionSort noteKeyLE notes

/-- Source `line.rs` lines 93-110: `JudgeLineCache::new` — sorts the notes in
place, then builds the views with `reset`; returns the sorted notes together
with the cache. -/
def JudgeLineCache.new (notes : List Note) : List Note × JudgeLineCache :=
  (sortNotes notes, JudgeLineCache.reset (sortNotes notes))

/-- Death of the note at an index, as read by `JudgeLine::update`
(`self.notes[*id as usize]`; an out-of-range index, which `update_order`
never contains, counts as not dead). -/
def deadAt (notes : List Note) (t : ℚ) (id : ℕ) : Bool :=
  match notes.get? id with
  | some n => n.dead t
  | none => false

/-- Source `line.rs` lines 157-161: the `retain` over `update_order` in
`JudgeLine::update`, keeping exactly the indices whose note is not dead at the
current time (`note.update` mutates no field `dead` reads). -/
def updateOrderStep (notes : List Note) (t : ℚ) (order : List ℕ) : List ℕ :=
  order.filter fun id => !deadAt notes t id

/-- Judge-line fields consumed by the embedded `chart.rs` functions: the notes
with their cache, plus `attach_ui` (the UI element code 1-7, `None` when the
line is not bound to a UI attachment point) and `z_index` read by
`Chart::new`. -/
structure JudgeLine where
  notes : List Note
  cache : JudgeLineCache
  attach_ui : Option ℕ
  z_index : ℤ
deriving DecidableEq

instance : Inhabited JudgeLine := ⟨⟨[], ⟨[], [], []⟩, none, 0⟩⟩

/-- Source `chart.rs` lines 29-39: the chart fields the claims touch. -/
structure Chart where
  offset : ℚ
  lines : List JudgeLine
  order : List ℕ
  attach_ui : List (Option ℕ)
deriving DecidableEq

/-- Lexicographic Bool-valued comparison for the render order key
`(z_index, declaration index)`. -/
def lex2 (x y : ℤ × ℕ) : Bool :=
  decide (x.1 < y.1) || (decide (x.1 = y.1) && decide (x.2 ≤ y.2))

/-- The relation `order.sort_by_key(|it| (lines[*it].z_index, *it))` sorts
by (source `chart.rs` line 54). -/
def orderLE (lines : List JudgeLine) (i j : ℕ) : Prop :=
  lex2 ((lines.getD i default).z_index, i) ((lines.getD j default).z_index, j) = true

instance (lines : List JudgeLine) : DecidableRel (orderLE lines) := fun i j => by
  unfold orderLE; infer_instance

instance (lines : List JudgeLine) : IsTotal ℕ (orderLE lines) := by
  constructor
  intro i j
  simp only [orderLE, lex2, Bool.or_eq_true, Bool.and_eq_true, decide_eq_true_eq]
  rcases lt_trichotomy (lines.getD i default).z_index (lines.getD j default).z_index with h | h | h
  · exact Or.inl (Or.inl h)
  · rcases le_total i j with h2 | h2
    · exact Or.inl (Or.inr ⟨h, h2⟩)
    · exact Or.inr (Or.inr ⟨h.symm, h2⟩)
  · exact Or.inr (Or.inl h)

instance (lines : List JudgeLine) : IsTrans ℕ (orderLE lines) := by
  constructor
  intro i j k hij hjk
  simp only [orderLE, lex2, Bool.or_eq_true, Bool.and_eq_true, decide_eq_true_eq] at *
  rcases hij with h1 | ⟨h1, h2⟩ <;> rcases hjk with g1 | ⟨g1, g2⟩
  · exact Or.inl (h1.trans g1)
  · exact Or.inl (g1 ▸ h1)
  · exact Or.inl (h1 ▸ g1)
  · exact Or.inr ⟨h1.trans g1, h2.trans g2⟩

/-- Source `chart.rs` lines 43-53: the `attach_ui` slot array filled during
the filter pass of `Chart::new` — slot `element - 1` receives the line index,
a later line with the same element overwriting an earlier one. -/
def buildAttachUI (lines : List JudgeLine) : List (Option ℕ) :=
  (List.range lines.length).foldl
    (fun acc i =>
      match (lines.getD i default).attach_ui with
      | some e => acc.set (e - 1) (some i)
      | none => acc)
    (List.replicate 7 none)

/-- Source `chart.rs` lines 42-66: `Chart::new` — the render `order` holds the
indices of the lines with no UI attachment, sorted by `(z_index, index)`. -/
def Chart.new (offset : ℚ) (lines : List JudgeLine) : Chart :=
  ⟨offset, lines,
    List.insertionSort (orderLE lines)
      ((List.range lines.length).filter fun i => (lines.getD i default).attach_ui = none),
    buildAttachUI lines⟩

/-- Source `chart.rs` lines 100-107: the per-note body of `Chart::reset`. -/
def Note.resetJudge (n : Note) : Note :=
  ⟨n.kind, n.time, n.height, n.speed, n.above, n.yTranslation, .notJudged, false⟩

/-- Source `chart.rs` lines 100-117: `Chart::reset` — first every note of
every line gets `judge = NotJudged` and `protected = false`, then every line's
cache is rebuilt by `JudgeLineCache::reset`; nothing else changes and nothing
is reparsed. -/
def Chart.reset (c : Chart) : Chart :=
  let lines1 := c.lines.map fun l =>
    (⟨l.notes.map Note.resetJudge, l.cache, l.attach_ui, l.z_index⟩ : JudgeLine)
  let lines2 := lines1.map fun l =>
    (⟨l.notes, JudgeLineCache.reset l.notes, l.attach_ui, l.z_index⟩ : JudgeLine)
  ⟨c.offset, lines2, c.order, c.attach_ui⟩

/-- Source `chart.rs` lines 142-147: the line ids visited by the render pass,
in order — exactly the precomputed `order` (`for id in &self.order`). -/
def Chart.renderVisitOrder (c : Chart) : List ℕ := c.order

/-- Source `chart.rs` lines 119-129: the line ids visited by the update pass,
in order — every line in chart-declared order. -/
def Chart.updateVisitOrder (c : Chart) : List ℕ := List.range c.lines.length

/-- Source `rpe.rs` lines 88-104: `RPENote` (the `hitsound` field is omitted:
resolving it performs external audio I/O and never feeds the claims). -/
structure RPENote where
  kind : ℕ
  above : ℕ
  start_time : Triple
  end_time : Triple
  position_x : ℚ
  y_offset : ℚ
  alpha : ℕ
  size : ℚ
  speed : ℚ
  is_fake : ℕ
deriving DecidableEq

/-- The structured parse failure of `parse_notes`: `ptl!(bail
"unknown-note-type", "type" => note.kind)` carries the offending code. -/
inductive ParseError where
  | unknownNoteType (code : ℕ)
deriving DecidableEq

/-- Source `rpe.rs` line 22: `RPE_HEIGHT`. -/
def RPE_HEIGHT : ℚ := 900

/-- Source `rpe.rs` lines 270-339: one iteration of the `parse_notes` loop.
The `match note.kind` of the source is written as an `if` chain; type codes
1-4 give `Click`, `Hold`, `Flick`, `Drag`, anything else the hard
`unknown-note-type` error. -/
def parseNote (r : BpmList) (height : List Keyframe) (note : RPENote) :
    Except ParseError Note :=
  let time := r.time note.start_time
  let note_height := evalR height time
  let y_offset := note.y_offset * 2 / RPE_HEIGHT * note.speed
  let mk : NoteKind → Note := fun kind =>
    ⟨kind, time, note_height, note.speed, decide (note.above = 1), y_offset, .notJudged, false⟩
  if note.kind = 1 then .ok (mk .click)
  else if note.kind = 2 then
    let end_time := r.time note.end_time
    .ok (mk (.hold end_time (evalR height end_time) none))
  else if note.kind = 3 then .ok (mk .flick)
  else if note.kind = 4 then .ok (mk .drag)
  else .error (.unknownNoteType note.kind)

/-- Source `rpe.rs` lines 262-342: `parse_notes`; the `?`-style propagation of
the loop stops at the first failing note. -/
def parse_notes (r : BpmList) (height : List Keyframe) (rpe : List RPENote) :
    Except ParseError (List Note) :=
  rpe.mapM (parseNote r height)

/-- Source `rpe.rs` lines 27-30: `RPEBpmItem { bpm, start_time }`. -/
structure RPEBpmItem where
  bpm : ℚ
  start_time : Triple
deriving DecidableEq

/-- Source `rpe.rs` line 394: the chart-level `BpmList`, built from the raw
breakpoints unchanged. -/
def chartBpmList (bpm_list : List RPEBpmItem) : BpmList :=
  ⟨bpm_list.map fun it => ⟨it.start_time.beats, it.bpm⟩⟩

/-- Source `rpe.rs` line 352: the per-line `BpmList` built inside
`parse_judge_line` — every breakpoint's bpm divided by the line's
`bpm_factor`. -/
def lineBpmList (bpm_list : List RPEBpmItem) (bpm_factor : ℚ) : BpmList :=
  ⟨bpm_list.map fun it => ⟨it.start_time.beats, it.bpm / bpm_factor⟩⟩

/-- Source `rpe.rs` line 112: `#[serde(default="f32_one")] bpm_factor` — a
missing field parses as `1.0`. -/
def bpmFactorValue (field : Option ℚ) : ℚ := field.getD 1

/-- Trapezoidal increment of interval `j` of the breakpoint list `pts` (spec
§4.3 step 4: `Δheight = (speed_start + speed_end) * duration / 2`, with the
right-limit start speed and left-limit end speed). -/
def trapezoid (layers : List (List Keyframe)) (pts : List ℚ) (j : ℕ) : ℚ :=
  (chainEvalR layers (pts.getD j 0) + chainEvalL layers (pts.getD (j + 1) 0)) *
    (pts.getD (j + 1) 0 - pts.getD j 0) / 2

/-- Interpolation kind stated by the claim for a displacement keyframe: linear
within `EPS`, quad-out clamped to `[0, 1 - e/s]` when `|s| > |e|`, otherwise
quad-in clamped to `[s/e, 1]`. -/
def claimTween (s e : ℚ) : Tween :=
  if |s - e| < EPS then .static 2
  else if |s| > |e| then .clamped 7 0 (1 - e / s)
  else .clamped 6 (s / e) 1

/-- Strictly opposite signs of the two sampled speeds, as worded by the
claim. -/
def strictlyOpposite (s e : ℚ) : Prop := (s < 0 ∧ 0 < e) ∨ (0 < s ∧ e < 0)

/-- Single-breakpoint tempo table at 60 bpm: one beat lasts one second. -/
def bpm60 : BpmList := ⟨[⟨0, 60⟩]⟩

/-- The spec scenario's speed event: linearly from `2` to `-2` over
`[0, 1]` seconds. -/
def scnEvent : RPESpeedEvent := ⟨⟨0, 0, 1⟩, ⟨1, 0, 1⟩, 2, -2⟩

/-- The spec scenario's single event layer. -/
def scnLayer : RPEEventLayer := ⟨some [scnEvent]⟩

/-- The spec scenario's note: a `Hold` spanning `[1, 2]` seconds, already
marked `Judged`. -/
def scnHold : Note := ⟨.hold 2 0 none, 1, 0, 1, true, 0, .judged, false⟩

/-- Definition following the claim's words, for comparison with the source's
key: the lexicographic relation on `(¬above, speed, height)` with the plain
`height` third component. -/
def claimNoteKeyLE (a b : Note) : Prop :=
  lex3 ((if a.above then 0 else 1), a.speed, a.height)
    ((if b.above then 0 else 1), b.speed, b.height) = true

instance : DecidableRel claimNoteKeyLE := fun a b => by unfold claimNoteKeyLE; infer_instance

/-- Definition following the claim's words: sorting the notes by
`(¬above, speed, height)`. -/
def claimSortNotes (notes : List Note) : List Note := List.insertionSort claimNoteKeyLE notes

/-- Above-side note with plain height 5 and no y offset: adjusted key 5. -/
def cxNoteA : Note := ⟨.click, 0, 5, 1, true, 0, .notJudged, false⟩

/-- Above-side note with plain height 0 but fixed y translation 10: adjusted
key 10, so the source's key order and the plain-height order disagree. -/
def cxNoteB : Note := ⟨.click, 0, 0, 1, true, 10, .notJudged, false⟩

/-- A below-side note, listed first in the `claim_C5` counterexample. -/
def cxNoteBelow : Note := ⟨.click, 0, 0, 1, false, 0, .notJudged, false⟩

/-- An above-side note, listed second in the `claim_C5` counterexample. -/
def cxNoteAbove : Note := ⟨.click, 0, 1, 1, true, 0, .notJudged, false⟩

/-- An `RPENote` with the unknown type code 5. -/
def cxRpeNote5 : RPENote := ⟨5, 1, ⟨0, 0, 1⟩, ⟨0, 0, 1⟩, 0, 0, 255, 1, 1, 0⟩

/-- A tiny concrete chart: one line holding the scenario hold note. -/
def cxChart : Chart := Chart.new 0 [⟨[scnHold], JudgeLineCache.reset [scnHold], none, 0⟩]

/-! ### Claim C10: per-line tempo tables -/

theorem div_sixty_div (c bpm f : ℚ) : c * 60 / (bpm / f) = f * (c * 60 / bpm) := by
  rw [div_div_eq_mul_div]
  ring

theorem timeBeatsFrom_div (f : ℚ) :
    ∀ (rest : List BpmItem) (cur : BpmItem) (b : ℚ),
      timeBeatsFrom ⟨cur.beat, cur.bpm / f⟩ (rest.map fun it => ⟨it.beat, it.bpm / f⟩) b =
        f * timeBeatsFrom cur rest b
  | [], cur, b => by
    simp only [List.map_nil, timeBeatsFrom]
    exact div_sixty_div _ _ _
  | nxt :: rest, cur, b => by
    simp only [List.map_cons, timeBeatsFrom]
    by_cases h : nxt.beat ≤ b
    · rw [if_pos h, if_pos h, timeBeatsFrom_div f rest nxt b, div_sixty_div]
      ring
    · rw [if_neg h, if_neg h]
      exact div_sixty_div _ _ _

/-- Claim C10: the per-line `BpmList` built by `parse_judge_line` divides every
chart-level breakpoint's bpm by the line's `bpmFactor` (which defaults to 1
when the field is absent), and consequently every beat-to-seconds conversion
through the per-line table is the chart-level conversion scaled by exactly
that factor — a `bpmFactor` other than 1 rescales that line's timeline only. -/
theorem claim_C10 :
    ∀ (bl : List RPEBpmItem) (f : ℚ) (tr : Triple) (b : ℚ),
      ((lineBpmList bl f).items =
        (chartBpmList bl).items.map fun it => ⟨it.beat, it.bpm / f⟩) ∧
      (lineBpmList bl f).timeBeats b = f * (chartBpmList bl).timeBeats b ∧
      (lineBpmList bl f).time tr = f * (chartBpmList bl).time tr ∧
      bpmFactorValue none = 1 ∧ (∀ q, bpmFactorValue (some q) = q) := by
  have key : ∀ (bl : List RPEBpmItem) (f b : ℚ),
      (lineBpmList bl f).timeBeats b = f * (chartBpmList bl).timeBeats b := by
    intro bl f b
    cases bl with
    | nil => simp [lineBpmList, chartBpmList, BpmList.timeBeats]
    | cons x rest =>
        show timeBeatsFrom ⟨x.start_time.beats, x.bpm / f⟩
            (rest.map fun it => ⟨it.start_time.beats, it.bpm / f⟩) b = _
        have := timeBeatsFrom_div f (rest.map fun it => ⟨it.start_time.beats, it.bpm⟩)
          ⟨x.start_time.beats, x.bpm⟩ b
        simpa [List.map_map, Function.comp_def, BpmList.timeBeats, lineBpmList,
          chartBpmList] using this
  intro bl f tr b
  refine ⟨?_, key bl f b, key bl f tr.beats, rfl, fun q => rfl⟩
  simp [lineBpmList, chartBpmList, List.map_map, Function.comp_def]

/-! ### Claim C7: `Chart::reset` -/

/-- Claim C7: `Chart::reset` leaves the chart structure alone except that
every line's notes get `judge = NotJudged` with the protected flag cleared —
all other note fields unchanged — and every line's cache is rebuilt by
`JudgeLineCache::reset` from the status-reset notes, without reparsing
(lines, order and attach slots survive unchanged). -/
theorem claim_C7 :
    ∀ c : Chart,
      ((Chart.reset c).lines.length = c.lines.length) ∧
      (∀ i, (Chart.reset c).lines.get? i =
        (c.lines.get? i).map fun l =>
          ⟨l.notes.map Note.resetJudge,
           JudgeLineCache.reset (l.notes.map Note.resetJudge),
           l.attach_ui, l.z_index⟩) ∧
      (∀ n : Note,
        (Note.resetJudge n).judge = .notJudged ∧
        (Note.resetJudge n).protectedFlag = false ∧
        (Note.resetJudge n).kind = n.kind ∧
        (Note.resetJudge n).time = n.time ∧
        (Note.resetJudge n).height = n.height ∧
        (Note.resetJudge n).speed = n.speed ∧
        (Note.resetJudge n).above = n.above ∧
        (Note.resetJudge n).yTranslation = n.yTranslation) ∧
      ((Chart.reset c).offset = c.offset) ∧
      ((Chart.reset c).order = c.order) ∧
      ((Chart.reset c).attach_ui = c.attach_ui) := by
  intro c
  refine ⟨?_, ?_, fun n => ⟨rfl, rfl, rfl, rfl, rfl, rfl, rfl, rfl⟩, rfl, rfl, rfl⟩
  · simp [Chart.reset]
  · intro i
    simp [Chart.reset, List.get?_map, Function.comp_def]

/-! ### Claims C3 and C6: note death and `update_order` pruning -/

/-- Claim C3: under the per-frame `retain` of `JudgeLine::update`, an index
with a `Click`/`Flick`/`Drag` note survives in `update_order` exactly while
the note is not `Judged`, and one with a `Hold` note exactly while it is not
(`Judged` with the current time at or past `end_time`); in particular the
scenario hold note spanning `[1, 2]` seconds, already `Judged`, is still
present after the update at `t = 3/2` and gone from `t = 2` on. -/
theorem claim_C3 :
    (∀ (notes : List Note) (t : ℚ) (order : List ℕ) (id : ℕ) (n : Note),
      notes[id]? = some n →
      ((id ∈ updateOrderStep notes t order ↔ id ∈ order ∧ ¬ n.dead t = true) ∧
       (∀ et eh es, n.kind = .hold et eh es →
          (n.dead t = true ↔ n.judge = .judged ∧ et ≤ t)) ∧
       ((∀ et eh es, n.kind ≠ .hold et eh es) →
          (n.dead t = true ↔ n.judge = .judged)))) ∧
    updateOrderStep [scnHold] (3/2) [0] = [0] ∧
    updateOrderStep [scnHold] 2 [0] = [] := by
  refine ⟨?_, ?_, ?_⟩
  · intro notes t order id n hn
    refine ⟨?_, ?_, ?_⟩
    · simp [updateOrderStep, List.mem_filter, deadAt, hn]
    · intro et eh es hk
      simp [Note.dead, hk]
    · intro hk
      cases h : n.kind with
      | hold et eh es => exact absurd h (hk et eh es)
      | click => simp [Note.dead, h]
      | flick => simp [Note.dead, h]
      | drag => simp [Note.dead, h]
  · norm_num [updateOrderStep, deadAt, Note.dead, scnHold]
  · norm_num [updateOrderStep, deadAt, Note.dead, scnHold]

/-- Witness for C3: the characterization applied to the scenario hold note at
`t = 3/2`. -/
theorem claim_C3_witness :
    (0 ∈ updateOrderStep [scnHold] (3/2) [0] ↔
      0 ∈ ([0] : List ℕ) ∧ ¬ scnHold.dead (3/2) = true) :=
  (claim_C3.1 [scnHold] (3/2) [0] 0 scnHold rfl).1

/-- Claim C6: one frame of `update_order` pruning removes exactly the indices
whose note is dead at the frame time — membership afterwards is membership
before plus survival — so the set only shrinks, and any run of successive
updates without a reset leaves a subset of the starting set. -/
theorem claim_C6 :
    ∀ (notes : List Note) (t : ℚ) (order : List ℕ),
      (updateOrderStep notes t order ⊆ order) ∧
      (∀ id, id ∈ updateOrderStep notes t order ↔
        id ∈ order ∧ deadAt notes t id = false) ∧
      (∀ ts : List ℚ,
        (ts.foldl (fun o t2 => updateOrderStep notes t2 o) order) ⊆ order) := by
  intro notes t order
  refine ⟨List.filter_subset' _, ?_, ?_⟩
  · intro id
    simp [updateOrderStep, List.mem_filter]
  · intro ts
    induction ts generalizing order with
    | nil => exact fun x hx => hx
    | cons t2 rest ih =>
        intro x hx
        exact List.filter_subset' _ (ih (updateOrderStep notes t2 order) hx)

/-- Witness for C6: one pruning step on the scenario hold note at `t = 2`
stays inside the starting index set. -/
theorem claim_C6_witness : updateOrderStep [scnHold] 2 [0] ⊆ [0] :=
  (claim_C6 [scnHold] 2 [0]).1

/-! ### Claims C4 and C5: the note cache construction and `reset` -/

/-- Consequences of the source's sort-key comparison: `above` notes come
first; within a side speeds ascend; within a `(side, speed)` run the
translation-adjusted height `height + yTranslation * speed` ascends. -/
theorem noteKeyLE_elim {a b : Note} (h : noteKeyLE a b) :
    (b.above = true → a.above = true) ∧
    (a.above = b.above → a.speed ≤ b.speed) ∧
    (a.above = b.above → a.speed = b.speed →
      a.height + a.yTranslation * a.speed ≤ b.height + b.yTranslation * b.speed) := by
  simp only [noteKeyLE, lex3, noteKey, Bool.or_eq_true, Bool.and_eq_true,
    decide_eq_true_eq] at h
  refine ⟨?_, ?_, ?_⟩
  · intro hb
    by_contra ha
    rw [Bool.not_eq_true] at ha
    rw [ha, hb] at h
    simp at h
  · intro hab
    rw [hab] at h
    rcases h with h | ⟨_, h | ⟨h, _⟩⟩
    · omega
    · exact le_of_lt h
    · exact le_of_eq h
  · intro hab hsp
    rw [hab] at h
    rcases h with h | ⟨_, h | ⟨h, h2⟩⟩
    · omega
    · exact absurd hsp (ne_of_lt h)
    · exact h2

/-- Counterexample to claim C4 as stated: two above-side notes with the same
speed whose plain heights are `5` and `0` but whose fixed y translations make
the source's adjusted keys `5` and `10` — the construction orders them by the
adjusted key, not by plain height, so it differs from a sort by
`(¬above, speed, height)`. -/
theorem claim_C4_cx : sortNotes [cxNoteA, cxNoteB] ≠ claimSortNotes [cxNoteA, cxNoteB] := by
  norm_num [sortNotes, claimSortNotes, noteKeyLE, claimNoteKeyLE, lex3, noteKey,
    cxNoteA, cxNoteB]

/-- Claim C4 as amended: `JudgeLineCache::new` stable-sorts the owning line's
notes by the key `(¬above, speed, height + yTranslation * speed)` — the third
component is the height adjusted by the note's fixed y translation, not the
plain height.  Hence the result is a permutation of the notes in which
above-side notes precede below-side notes, speeds ascend within a side, and
the adjusted height ascends within each `(side, speed)` run. -/
theorem claim_C4 :
    ∀ notes : List Note,
      ((JudgeLineCache.new notes).1.Perm notes) ∧
      List.Sorted noteKeyLE (JudgeLineCache.new notes).1 ∧
      (JudgeLineCache.new notes).1.Pairwise (fun a b => b.above = true → a.above = true) ∧
      (JudgeLineCache.new notes).1.Pairwise
        (fun a b => a.above = b.above → a.speed ≤ b.speed) ∧
      (JudgeLineCache.new notes).1.Pairwise
        (fun a b => a.above = b.above → a.speed = b.speed →
          a.height + a.yTranslation * a.speed ≤ b.height + b.yTranslation * b.speed) := by
  intro notes
  have hs : List.Sorted noteKeyLE (sortNotes notes) :=
    List.sorted_insertionSort noteKeyLE notes
  exact ⟨List.perm_insertionSort noteKeyLE notes, hs,
    hs.imp fun h => (noteKeyLE_elim h).1,
    hs.imp fun h => (noteKeyLE_elim h).2.1,
    hs.imp fun h => (noteKeyLE_elim h).2.2⟩

/-- Counterexample to claim C5 as stated: `JudgeLineCache::reset` does not
re-sort — on a note list that is not in key order (a below-side note listed
before an above-side one) it builds different views than it would on the
sorted list, because the run scans read the notes in their current order. -/
theorem claim_C5_cx :
    JudgeLineCache.reset [cxNoteBelow, cxNoteAbove] ≠
      JudgeLineCache.reset (sortNotes [cxNoteBelow, cxNoteAbove]) := by
  norm_num [JudgeLineCache.reset, aboveLoop, belowLoop, runEnd, sortNotes, noteKeyLE,
    lex3, noteKey, cxNoteBelow, cxNoteAbove, List.range_succ]

/-- Claim C5 as amended: `reset(notes)` rebuilds all three views from the
notes in their current order (it does not itself re-sort; the one-off sort
happens in `JudgeLineCache::new`); it is deterministic, so calling it twice on
the same notes and statuses yields bit-identical partitions, and on the notes
as left sorted by the construction it reproduces the construction's partition
exactly. -/
theorem claim_C5 :
    ∀ ns : List Note,
      (JudgeLineCache.reset ns = JudgeLineCache.reset ns) ∧
      ((JudgeLineCache.reset ns).update_order = List.range ns.length) ∧
      (JudgeLineCache.reset ((JudgeLineCache.new ns).1) = (JudgeLineCache.new ns).2) :=
  fun ns => ⟨rfl, rfl, rfl⟩

/-! ### Claim C8: note type codes -/

/-- Claim C8: the parser maps type codes 1, 2, 3, 4 to `Click`, `Hold`,
`Flick`, `Drag`, and any other code makes `parse_notes` fail with the
`unknown-note-type` error carrying the offending code — a note list parses
successfully only if every code is one of 1-4, so no note is silently
defaulted. -/
theorem claim_C8 :
    ∀ (r : BpmList) (h : List Keyframe) (note : RPENote),
      (note.kind = 1 → ∃ n, parseNote r h note = .ok n ∧ n.kind = .click) ∧
      (note.kind = 2 → ∃ n, parseNote r h note = .ok n ∧
        n.kind = .hold (r.time note.end_time) (evalR h (r.time note.end_time)) none) ∧
      (note.kind = 3 → ∃ n, parseNote r h note = .ok n ∧ n.kind = .flick) ∧
      (note.kind = 4 → ∃ n, parseNote r h note = .ok n ∧ n.kind = .drag) ∧
      (note.kind ≠ 1 → note.kind ≠ 2 → note.kind ≠ 3 → note.kind ≠ 4 →
        parseNote r h note = .error (.unknownNoteType note.kind)) ∧
      (∀ (rpe : List RPENote) (notes : List Note),
        parse_notes r h rpe = .ok notes →
        ∀ e ∈ rpe, e.kind = 1 ∨ e.kind = 2 ∨ e.kind = 3 ∨ e.kind = 4) := by
  intro r h note
  refine ⟨?_, ?_, ?_, ?_, ?_, ?_⟩
  · intro hk; simp [parseNote, hk]
  · intro hk; simp [parseNote, hk]
  · intro hk; simp [parseNote, hk]
  · intro hk; simp [parseNote, hk]
  · intro h1 h2 h3 h4
    simp [parseNote, h1, h2, h3, h4]
  · intro rpe
    induction rpe with
    | nil => intro notes _ e he; cases he
    | cons x rest ih =>
        intro notes hok e he
        rw [parse_notes, List.mapM_cons] at hok
        cases hp : parseNote r h x with
        | error err =>
            rw [hp] at hok
            simp [bind, Except.bind] at hok
        | ok n =>
            rw [hp] at hok
            cases hr : rest.mapM (parseNote r h) with
            | error err =>
                rw [hr] at hok
                simp [bind, Except.bind] at hok
            | ok ns =>
                rcases List.mem_cons.mp he with he1 | he1
                · subst he1
                  by_contra hbad
                  push_neg at hbad
                  obtain ⟨h1, h2, h3, h4⟩ := hbad
                  rw [show parseNote r h e = .error (.unknownNoteType e.kind) from by
                    simp [parseNote, h1, h2, h3, h4]] at hp
                  cases hp
                · exact ih ns (by rw [parse_notes]; exact hr) e he1

/-- Witness for C8: type code 5 is rejected with the context-carrying error. -/
theorem claim_C8_witness :
    parseNote bpm60 [] cxRpeNote5 = .error (.unknownNoteType 5) := by
  have := (claim_C8 bpm60 [] cxRpeNote5).2.2.2.2.1
  simp only [cxRpeNote5] at this ⊢
  exact this (by norm_num) (by norm_num) (by norm_num) (by norm_num)

/-! ### Claim C9: scheduler orders -/

/-- Claim C9: `Chart::new` precomputes a render order holding exactly the
indices of the judge lines with no UI attachment, sorted ascending by
`(z_index, declaration index)`; `Chart::render` walks exactly that order (so
UI-attached lines are excluded from the pass), while `Chart::update` walks
every line in chart-declared order. -/
theorem claim_C9 :
    ∀ (offset : ℚ) (lines : List JudgeLine),
      (∀ i, i ∈ (Chart.new offset lines).order ↔
        i < lines.length ∧ (lines.getD i default).attach_ui = none) ∧
      List.Sorted (orderLE lines) (Chart.new offset lines).order ∧
      Chart.renderVisitOrder (Chart.new offset lines) = (Chart.new offset lines).order ∧
      Chart.updateVisitOrder (Chart.new offset lines) = List.range lines.length := by
  intro offset lines
  refine ⟨?_, ?_, rfl, rfl⟩
  · intro i
    show i ∈ List.insertionSort (orderLE lines) _ ↔ _
    rw [List.mem_insertionSort, List.mem_filter, List.mem_range]
    simp
  · exact List.sorted_insertionSort (orderLE lines) _

/-! ### Claim C1: displacement keyframes from trapezoidal integration -/

theorem trapezoid_cons (L : List (List Keyframe)) (p : ℚ) (pts : List ℚ) (j : ℕ) :
    trapezoid L (p :: pts) (j + 1) = trapezoid L pts j := by
  simp [trapezoid, List.getD_cons_succ]

theorem heightKfs_fst_length (L : List (List Keyframe)) :
    ∀ (pts : List ℚ) (h0 : ℚ), (heightKfs L pts h0).1.length = pts.length - 1
  | [], _ => rfl
  | [_], _ => rfl
  | p :: q :: rest, h0 => by
      simp only [heightKfs, List.length_cons]
      rw [heightKfs_fst_length L (q :: rest) _]
      simp

theorem heightKfs_getD (L : List (List Keyframe)) :
    ∀ (pts : List ℚ) (h0 : ℚ) (i : ℕ), i + 1 < pts.length →
      (heightKfs L pts h0).1.getD i default =
        ⟨pts.getD i 0,
         h0 + ∑ j ∈ Finset.range i, trapezoid L pts j,
         claimTween (chainEvalR L (pts.getD i 0)) (chainEvalL L (pts.getD (i + 1) 0))⟩
  | [], _, i, h => by simp at h
  | [_], _, i, h => by simp at h
  | p :: q :: rest, h0, 0, _ => by
      simp only [heightKfs, List.getD_cons_zero, List.getD_cons_succ, Finset.range_zero,
        Finset.sum_empty, add_zero, claimTween]
      split_ifs <;> rfl
  | p :: q :: rest, h0, i + 1, h => by
      have hlen : i + 1 < (q :: rest).length := by
        simpa [Nat.succ_lt_succ_iff] using h
      have ih := heightKfs_getD L (q :: rest)
        (h0 + (chainEvalR L p + chainEvalL L q) * (q - p) / 2) i hlen
      simp only [heightKfs, List.getD_cons_succ]
      rw [ih]
      have hshift : ∀ j, trapezoid L (p :: q :: rest) (j + 1) = trapezoid L (q :: rest) j :=
        trapezoid_cons L p (q :: rest)
      have hsum : h0 + ∑ j ∈ Finset.range (i + 1), trapezoid L (p :: q :: rest) j =
          h0 + (chainEvalR L p + chainEvalL L q) * (q - p) / 2 +
            ∑ j ∈ Finset.range i, trapezoid L (q :: rest) j := by
        rw [Finset.sum_range_succ']
        simp only [hshift]
        have h0t : trapezoid L (p :: q :: rest) 0 =
            (chainEvalR L p + chainEvalL L q) * (q - p) / 2 := by
          simp [trapezoid]
        rw [h0t]
        ring
      rw [← hsum]
      simp [List.getD_cons_succ]

theorem mem_dedupAdj : ∀ (l : List ℚ) (x : ℚ), x ∈ dedupAdj l ↔ x ∈ l
  | [], x => by simp [dedupAdj]
  | [y], x => by simp [dedupAdj]
  | y :: z :: rest, x => by
      by_cases h : y = z
      · rw [dedupAdj, if_pos h, mem_dedupAdj (z :: rest) x]
        subst h
        simp [List.mem_cons]
      · rw [dedupAdj, if_neg h]
        simp [List.mem_cons, mem_dedupAdj (z :: rest) x]

theorem sorted_dedupAdj : ∀ (l : List ℚ), l.Sorted (· ≤ ·) → (dedupAdj l).Sorted (· < ·)
  | [], _ => by simp [dedupAdj]
  | [x], _ => by simp [dedupAdj]
  | x :: y :: rest, h => by
      have hc := List.sorted_cons.mp h
      by_cases hxy : x = y
      · rw [dedupAdj, if_pos hxy]
        exact sorted_dedupAdj (y :: rest) hc.2
      · rw [dedupAdj, if_neg hxy, List.sorted_cons]
        refine ⟨?_, sorted_dedupAdj (y :: rest) hc.2⟩
        intro b hb
        rw [mem_dedupAdj] at hb
        have hxb : x ≤ b := hc.1 b hb
        rcases List.mem_cons.mp hb with rfl | hb2
        · exact lt_of_le_of_ne hxb hxy
        · have hyb : y ≤ b := (List.sorted_cons.mp hc.2).1 b hb2
          refine lt_of_le_of_ne hxb fun he => hxy ?_
          exact le_antisymm (hc.1 y (by simp)) (he ▸ hyb)

theorem adjPairs_mem : ∀ (l : List ℚ) (pq : ℚ × ℚ), pq ∈ adjPairs l → pq.1 ∈ l ∧ pq.2 ∈ l
  | [], pq, h => by simp [adjPairs] at h
  | [x], pq, h => by simp [adjPairs] at h
  | x :: y :: rest, pq, h => by
      rcases List.mem_cons.mp h with rfl | h2
      · exact ⟨by simp, by simp⟩
      · have := adjPairs_mem (y :: rest) pq h2
        exact ⟨List.mem_cons_of_mem _ this.1, List.mem_cons_of_mem _ this.2⟩

theorem adjPairs_lt : ∀ (l : List ℚ), l.Sorted (· < ·) → ∀ pq ∈ adjPairs l, pq.1 < pq.2
  | [], _, pq, h => by simp [adjPairs] at h
  | [x], _, pq, h => by simp [adjPairs] at h
  | x :: y :: rest, hs, pq, h => by
      rcases List.mem_cons.mp h with rfl | h2
      · exact (List.sorted_cons.mp hs).1 y (by simp)
      · exact adjPairs_lt (y :: rest) (List.sorted_cons.mp hs).2 pq h2

theorem adjPairs_not_between :
    ∀ (l : List ℚ), l.Sorted (· < ·) →
      ∀ pq ∈ adjPairs l, ∀ z ∈ l, ¬(pq.1 < z ∧ z < pq.2)
  | [], _, pq, h, _, _ => by simp [adjPairs] at h
  | [x], _, pq, h, _, _ => by simp [adjPairs] at h
  | x :: y :: rest, hs, pq, h, z, hz => by
      have hc := List.sorted_cons.mp hs
      rcases List.mem_cons.mp h with rfl | h2
      · rintro ⟨hz1, hz2⟩
        rcases List.mem_cons.mp hz with rfl | hz3
        · exact lt_irrefl _ hz1
        rcases List.mem_cons.mp hz3 with rfl | hz4
        · exact lt_irrefl _ hz2
        · have : y < z := (List.sorted_cons.mp hc.2).1 z hz4
          exact absurd hz2 (not_lt.mpr this.le)
      · rintro ⟨hz1, hz2⟩
        rcases List.mem_cons.mp hz with rfl | hz3
        · have hp1 : pq.1 ∈ y :: rest := (adjPairs_mem _ _ h2).1
          exact absurd hz1 (not_lt.mpr (hc.1 pq.1 hp1).le)
        · exact adjPairs_not_between (y :: rest) hc.2 pq h2 z hz3 ⟨hz1, hz2⟩

theorem find_enclosing :
    ∀ (l : List ℚ), l.Sorted (· < ·) → ∀ p q : ℚ, p < q →
      (∀ z ∈ l, z ≤ p ∨ q ≤ z) →
      (∃ a ∈ l, a ≤ p) → (∃ b ∈ l, q ≤ b) →
      ∃ ab ∈ adjPairs l, ab.1 ≤ p ∧ q ≤ ab.2
  | [], _, p, q, _, _, ha, _ => by
      obtain ⟨a, ha, _⟩ := ha
      cases ha
  | [x], _, p, q, hpq, _, ha, hb => by
      obtain ⟨a, ha, hap⟩ := ha
      obtain ⟨b, hb, hqb⟩ := hb
      simp only [List.mem_singleton] at ha hb
      subst ha
      subst hb
      exact absurd hpq (not_lt.mpr (hqb.trans hap))
  | x :: y :: rest, hs, p, q, hpq, hbet, ha, hb => by
      have hc := List.sorted_cons.mp hs
      obtain ⟨a, hal, hap⟩ := ha
      obtain ⟨b, hbl, hqb⟩ := hb
      by_cases hy : q ≤ y
      · have hxp : x ≤ p := by
          rcases List.mem_cons.mp hal with rfl | h2
          · exact hap
          · exact (hc.1 a h2).le.trans hap
        exact ⟨(x, y), by simp [adjPairs], hxp, hy⟩
      · have hyp : y ≤ p := (hbet y (by simp)).resolve_right hy
        have hbyr : b ∈ y :: rest := by
          rcases List.mem_cons.mp hbl with rfl | h2
          · exfalso
            exact hy (hqb.trans (hc.1 y (by simp)).le)
          · exact h2
        obtain ⟨ab, hab, h1, h2⟩ :=
          find_enclosing (y :: rest) hc.2 p q hpq
            (fun z hz => hbet z (List.mem_cons_of_mem _ hz))
            ⟨y, by simp, hyp⟩ ⟨b, hbyr, hqb⟩
        exact ⟨ab, by rw [adjPairs]; exact List.mem_cons_of_mem _ hab, h1, h2⟩

theorem sorted_origPts (r : BpmList) (rpe : List RPEEventLayer) (m : ℚ) :
    (origPts r rpe m).Sorted (· < ·) :=
  sorted_dedupAdj _ (List.sorted_insertionSort _ _)

theorem sorted_finalPts (r : BpmList) (rpe : List RPEEventLayer) (m : ℚ) :
    (finalPts r rpe m).Sorted (· < ·) :=
  sorted_dedupAdj _ (List.sorted_insertionSort _ _)

theorem mem_origPts (r : BpmList) (rpe : List RPEEventLayer) (m : ℚ) (x : ℚ) :
    x ∈ origPts r rpe m ↔
      x ∈ (speedLayers r rpe).flatMap (·.map (·.time)) ∨ x = m := by
  rw [origPts, mem_dedupAdj, List.mem_insertionSort, List.mem_append]
  simp

theorem mem_finalPts (r : BpmList) (rpe : List RPEEventLayer) (m : ℚ) (x : ℚ) :
    x ∈ finalPts r rpe m ↔
      x ∈ origPts r rpe m ∨ x ∈ insertedPts (scaledLayers r rpe) (origPts r rpe m) := by
  rw [finalPts, mem_dedupAdj, List.mem_insertionSort, List.mem_append]

theorem max_time_mem_origPts (r : BpmList) (rpe : List RPEEventLayer) (m : ℚ) :
    m ∈ origPts r rpe m := by
  rw [mem_origPts]
  exact Or.inr rfl

theorem finalPts_length_pos (r : BpmList) (rpe : List RPEEventLayer) (m : ℚ) :
    0 < (finalPts r rpe m).length :=
  List.length_pos.mpr (List.ne_nil_of_mem
    ((mem_finalPts r rpe m m).mpr (Or.inl (max_time_mem_origPts r rpe m))))

/-- Claim C1: with at least one speed-event layer present, the curve built by
`parse_speed_events` has one keyframe per final breakpoint, the keyframe at
the start of interval `i` carrying the running total of the trapezoidal
increments of the earlier intervals and the interpolation kind dictated by the
sampled interval speeds: linear within `EPS`, quad-out clamped to
`[0, 1 - e/s]` when `|s| > |e|`, quad-in clamped to `[s/e, 1]` otherwise. -/
theorem claim_C1 :
    ∀ (r : BpmList) (rpe : List RPEEventLayer) (max_time : ℚ),
      (rpe.filterMap (·.speed_events)).isEmpty = false →
      ((parse_speed_events r rpe max_time).length = (finalPts r rpe max_time).length ∧
       ∀ i, i + 1 < (finalPts r rpe max_time).length →
         (parse_speed_events r rpe max_time).getD i default =
           ⟨(finalPts r rpe max_time).getD i 0,
            ∑ j ∈ Finset.range i, trapezoid (scaledLayers r rpe) (finalPts r rpe max_time) j,
            claimTween
              (chainEvalR (scaledLayers r rpe) ((finalPts r rpe max_time).getD i 0))
              (chainEvalL (scaledLayers r rpe) ((finalPts r rpe max_time).getD (i + 1) 0))⟩) := by
  intro r rpe max_time hne
  have hps : parse_speed_events r rpe max_time =
      (heightKfs (scaledLayers r rpe) (finalPts r rpe max_time) 0).1 ++
        [⟨max_time, (heightKfs (scaledLayers r rpe) (finalPts r rpe max_time) 0).2,
          .static 0⟩] := by
    rw [parse_speed_events, hne]
    simp
  have hlen := heightKfs_fst_length (scaledLayers r rpe) (finalPts r rpe max_time) 0
  have hpos := finalPts_length_pos r rpe max_time
  constructor
  · rw [hps]
    simp only [List.length_append, List.length_singleton, hlen]
    omega
  · intro i hi
    have hi' : i < (heightKfs (scaledLayers r rpe) (finalPts r rpe max_time) 0).1.length := by
      omega
    rw [hps, List.getD_append _ _ _ _ hi',
      heightKfs_getD (scaledLayers r rpe) (finalPts r rpe max_time) 0 i hi]
    rw [zero_add]

/-- Witness for C1: the scenario input (one layer, one event from 2 to -2 over
a one-second chart) instantiates the hypothesis and conclusion of `claim_C1`
at interval 0. -/
theorem claim_C1_witness :
    ([scnLayer].filterMap (·.speed_events)).isEmpty = false ∧
    (0 + 1 < (finalPts bpm60 [scnLayer] 1).length ∧
      (parse_speed_events bpm60 [scnLayer] 1).getD 0 default =
        ⟨(finalPts bpm60 [scnLayer] 1).getD 0 0,
         ∑ j ∈ Finset.range 0, trapezoid (scaledLayers bpm60 [scnLayer]) (finalPts bpm60 [scnLayer] 1) j,
         claimTween
           (chainEvalR (scaledLayers bpm60 [scnLayer]) ((finalPts bpm60 [scnLayer] 1).getD 0 0))
           (chainEvalL (scaledLayers bpm60 [scnLayer]) ((finalPts bpm60 [scnLayer] 1).getD (0 + 1) 0))⟩) := by
  have h1 : ([scnLayer].filterMap (·.speed_events)).isEmpty = false := by
    simp [scnLayer]
  have h2 : 0 + 1 < (finalPts bpm60 [scnLayer] 1).length := by
    norm_num [finalPts, origPts, speedLayers, speedLayerKfs, bpm60, scnLayer, scnEvent,
      Triple.beats, BpmList.timeBeats, timeBeatsFrom, dedupAdj, insertedPts, scaledLayers,
      scaleKfs, speed_ratio, height_ratio, adjPairs, chainEvalR, chainEvalL, evalR, evalL,
      interp, Tween.eval, baseTween, rustSignum, lerp, Function.comp_def, List.filterMap_cons,
      List.filterMap_nil]
  exact ⟨h1, h2, (claim_C1 bpm60 [scnLayer] 1 h1).2 0 h2⟩

/-! ### Claim C2: zero-crossing insertion -/

theorem rustSignum_neg_prod {s e : ℚ} (h : rustSignum s * rustSignum e < 0) :
    (s < 0 ∧ 0 ≤ e) ∨ (0 ≤ s ∧ e < 0) := by
  by_cases hs : s < 0 <;> by_cases he : e < 0
  · exfalso
    rw [rustSignum, rustSignum, if_pos hs, if_pos he] at h
    norm_num at h
  · exact Or.inl ⟨hs, le_of_not_lt he⟩
  · exact Or.inr ⟨le_of_not_lt hs, he⟩
  · exfalso
    rw [rustSignum, rustSignum, if_neg hs, if_neg he] at h
    norm_num at h

theorem lerp_mem_interval {a b s e : ℚ} (hab : a < b)
    (hcond : rustSignum s * rustSignum e < 0) :
    a ≤ lerp a b (s / (s - e)) ∧ lerp a b (s / (s - e)) ≤ b := by
  have hr : 0 ≤ s / (s - e) ∧ s / (s - e) ≤ 1 := by
    rcases rustSignum_neg_prod hcond with ⟨hs, he⟩ | ⟨hs, he⟩
    · have hd : s - e < 0 := by linarith
      constructor
      · rw [div_nonneg_iff]
        exact Or.inr ⟨hs.le, hd.le⟩
      · rw [div_le_one_of_neg hd]
        linarith
    · have hd : 0 < s - e := by linarith
      constructor
      · exact div_nonneg hs hd.le
      · rw [div_le_one hd]
        linarith
  constructor
  · have : 0 ≤ (b - a) * (s / (s - e)) := mul_nonneg (by linarith) hr.1
    simp only [lerp]
    linarith
  · have := mul_le_mul_of_nonneg_left hr.2 (show (0:ℚ) ≤ b - a by linarith)
    simp only [lerp]
    linarith

theorem insertedPts_bounds (layers : List (List Keyframe)) (pts : List ℚ)
    (hs : pts.Sorted (· < ·)) :
    ∀ z ∈ insertedPts layers pts, ∃ ab ∈ adjPairs pts, ab.1 ≤ z ∧ z ≤ ab.2 := by
  intro z hz
  rw [insertedPts, List.mem_filterMap] at hz
  obtain ⟨pq, hpq, hcond⟩ := hz
  by_cases hc : rustSignum (chainEvalR layers pq.1) * rustSignum (chainEvalL layers pq.2) < 0
  · rw [if_pos hc] at hcond
    obtain ⟨h1, h2⟩ := lerp_mem_interval (adjPairs_lt pts hs pq hpq) hc
    exact ⟨pq, hpq, by rw [← Option.some_inj.mp hcond]; exact ⟨h1, h2⟩⟩
  · rw [if_neg hc] at hcond
    cases hcond

theorem mem_finalPts_exists_below (r : BpmList) (rpe : List RPEEventLayer) (m : ℚ)
    (x : ℚ) (hx : x ∈ finalPts r rpe m) :
    (∃ a ∈ origPts r rpe m, a ≤ x) ∧ (∃ b ∈ origPts r rpe m, x ≤ b) := by
  rcases (mem_finalPts r rpe m x).mp hx with h | h
  · exact ⟨⟨x, h, le_refl x⟩, ⟨x, h, le_refl x⟩⟩
  · obtain ⟨ab, hab, h1, h2⟩ :=
      insertedPts_bounds (scaledLayers r rpe) (origPts r rpe m) (sorted_origPts r rpe m) x h
    have hmem := adjPairs_mem _ _ hab
    exact ⟨⟨ab.1, hmem.1, h1⟩, ⟨ab.2, hmem.2, h2⟩⟩

theorem scaledLayers_tweens (r : BpmList) (rpe : List RPEEventLayer) :
    ∀ l ∈ scaledLayers r rpe, ∀ k ∈ l,
      k.tween = Tween.static 0 ∨ k.tween = Tween.static 2 := by
  intro l hl k hk
  rw [scaledLayers, List.mem_map] at hl
  obtain ⟨l0, hl0, rfl⟩ := hl
  rw [scaleKfs, List.mem_map] at hk
  obtain ⟨k0, hk0, rfl⟩ := hk
  rw [speedLayers, List.mem_map] at hl0
  obtain ⟨evs, _, rfl⟩ := hl0
  rw [speedLayerKfs, List.mem_flatMap] at hk0
  obtain ⟨e, _, hk0⟩ := hk0
  rcases List.mem_cons.mp hk0 with rfl | hk1
  · exact Or.inr rfl
  rcases List.mem_cons.mp hk1 with rfl | hk2
  · exact Or.inl rfl
  · cases hk2

theorem scaledLayers_times (r : BpmList) (rpe : List RPEEventLayer) (m : ℚ) :
    ∀ l ∈ scaledLayers r rpe, ∀ k ∈ l, k.time ∈ origPts r rpe m := by
  intro l hl k hk
  rw [mem_origPts]
  left
  rw [scaledLayers, List.mem_map] at hl
  obtain ⟨l0, hl0, rfl⟩ := hl
  rw [scaleKfs, List.mem_map] at hk
  obtain ⟨k0, hk0, rfl⟩ := hk
  rw [List.mem_flatMap]
  exact ⟨l0, hl0, List.mem_map.mpr ⟨k0, hk0, rfl⟩⟩

/-- An animation curve whose tweens are all hold or linear is affine on any
open interval containing none of its keyframe times, with the right limit at
the left end and the left limit at the right end lying on the same affine
function. -/
theorem eval_affine (p q : ℚ) (hpq : p < q) :
    ∀ L : List Keyframe,
      (∀ k ∈ L, k.tween = Tween.static 0 ∨ k.tween = Tween.static 2) →
      (∀ k ∈ L, k.time ≤ p ∨ q ≤ k.time) →
      ∃ A B : ℚ, evalR L p = A + B * p ∧ evalL L q = A + B * q ∧
        ∀ t, p < t → t < q → evalR L t = A + B * t ∧ evalL L t = A + B * t := by
  intro L
  induction L with
  | nil =>
      intro _ _
      exact ⟨0, 0, by simp [evalR], by simp [evalL],
        fun t _ _ => ⟨by simp [evalR], by simp [evalL]⟩⟩
  | cons k1 L ih =>
      intro hT hB
      cases L with
      | nil =>
          exact ⟨k1.value, 0, by simp [evalR], by simp [evalL],
            fun t _ _ => ⟨by simp [evalR], by simp [evalL]⟩⟩
      | cons k2 rest =>
          rcases hB k1 (by simp) with h1 | h1
          · -- k1.time ≤ p
            by_cases h2 : k2.time ≤ p
            · -- both cursor keyframes are at or before p: behave as the tail
              obtain ⟨A, B, hRp, hLq, hint⟩ := ih
                (fun k hk => hT k (List.mem_cons_of_mem _ hk))
                (fun k hk => hB k (List.mem_cons_of_mem _ hk))
              have stepR : ∀ t, p ≤ t → evalR (k1 :: k2 :: rest) t = evalR (k2 :: rest) t := by
                intro t ht
                rw [evalR]
                rw [if_neg (not_lt.mpr (h1.trans ht)), if_neg (not_lt.mpr (h2.trans ht))]
              have stepL : ∀ t, p < t → evalL (k1 :: k2 :: rest) t = evalL (k2 :: rest) t := by
                intro t ht
                rw [evalL]
                rw [if_neg (not_le.mpr (lt_of_le_of_lt h1 ht)),
                  if_neg (not_le.mpr (lt_of_le_of_lt h2 ht))]
              refine ⟨A, B, ?_, ?_, ?_⟩
              · rw [stepR p (le_refl p)]; exact hRp
              · rw [stepL q (hpq)]; exact hLq
              · intro t ht1 ht2
                rw [stepR t ht1.le, stepL t ht1]
                exact hint t ht1 ht2
            · -- k1.time ≤ p < q ≤ k2.time: the (k1, k2) segment covers (p, q)
              have h2' : q ≤ k2.time := (hB k2 (by simp)).resolve_left h2
              have hsegR : ∀ t, p ≤ t → t < q → evalR (k1 :: k2 :: rest) t = interp k1 k2 t := by
                intro t ht1 ht2
                rw [evalR]
                rw [if_neg (not_lt.mpr (h1.trans ht1)), if_pos (lt_of_lt_of_le ht2 h2')]
              have hsegL : ∀ t, p < t → t ≤ q → evalL (k1 :: k2 :: rest) t = interp k1 k2 t := by
                intro t ht1 ht2
                rw [evalL]
                rw [if_neg (not_le.mpr (lt_of_le_of_lt h1 ht1)), if_pos (ht2.trans h2')]
              rcases hT k1 (by simp) with htw | htw
              · -- hold tween: constant segment
                refine ⟨k1.value, 0, ?_, ?_, ?_⟩
                · rw [hsegR p (le_refl p) hpq]
                  simp [interp, htw, Tween.eval, baseTween]
                · rw [hsegL q hpq (le_refl q)]
                  simp [interp, htw, Tween.eval, baseTween]
                · intro t ht1 ht2
                  constructor
                  · rw [hsegR t ht1.le ht2]
                    simp [interp, htw, Tween.eval, baseTween]
                  · rw [hsegL t ht1 ht2.le]
                    simp [interp, htw, Tween.eval, baseTween]
              · -- linear tween: affine segment
                refine ⟨k1.value - (k2.value - k1.value) * (k2.time - k1.time)⁻¹ * k1.time,
                        (k2.value - k1.value) * (k2.time - k1.time)⁻¹, ?_, ?_, ?_⟩
                · rw [hsegR p (le_refl p) hpq]
                  simp only [interp, htw, Tween.eval, baseTween, div_eq_mul_inv]
                  ring
                · rw [hsegL q hpq (le_refl q)]
                  simp only [interp, htw, Tween.eval, baseTween, div_eq_mul_inv]
                  ring
                · intro t ht1 ht2
                  constructor
                  · rw [hsegR t ht1.le ht2]
                    simp only [interp, htw, Tween.eval, baseTween, div_eq_mul_inv]
                    ring
                  · rw [hsegL t ht1 ht2.le]
                    simp only [interp, htw, Tween.eval, baseTween, div_eq_mul_inv]
                    ring
          · -- q ≤ k1.time: everything in (p, q) precedes the first keyframe
            refine ⟨k1.value, 0, ?_, ?_, ?_⟩
            · rw [evalR, if_pos (lt_of_lt_of_le hpq h1)]
              ring
            · rw [evalL, if_pos h1]
              ring
            · intro t ht1 ht2
              constructor
              · rw [evalR, if_pos (lt_of_lt_of_le ht2 h1)]
                ring
              · rw [evalL, if_pos (ht2.le.trans h1)]
                ring

/-- Sum of affine curves: the chained speed curve is affine on any open
interval free of keyframe times of every layer. -/
theorem chain_affine (p q : ℚ) (hpq : p < q) :
    ∀ layers : List (List Keyframe),
      (∀ l ∈ layers, ∀ k ∈ l, k.tween = Tween.static 0 ∨ k.tween = Tween.static 2) →
      (∀ l ∈ layers, ∀ k ∈ l, k.time ≤ p ∨ q ≤ k.time) →
      ∃ A B : ℚ, chainEvalR layers p = A + B * p ∧ chainEvalL layers q = A + B * q ∧
        ∀ t, p < t → t < q → chainEvalR layers t = A + B * t ∧ chainEvalL layers t = A + B * t := by
  intro layers
  induction layers with
  | nil =>
      intro _ _
      exact ⟨0, 0, by simp [chainEvalR], by simp [chainEvalL],
        fun t _ _ => ⟨by simp [chainEvalR], by simp [chainEvalL]⟩⟩
  | cons l ls ih =>
      intro hT hB
      obtain ⟨A1, B1, hR1, hL1, hint1⟩ := eval_affine p q hpq l (hT l (by simp)) (hB l (by simp))
      obtain ⟨A2, B2, hR2, hL2, hint2⟩ := ih
        (fun l2 hl2 => hT l2 (List.mem_cons_of_mem _ hl2))
        (fun l2 hl2 => hB l2 (List.mem_cons_of_mem _ hl2))
      refine ⟨A1 + A2, B1 + B2, ?_, ?_, ?_⟩
      · simp only [chainEvalR, List.map_cons, List.sum_cons] at hR2 ⊢
        rw [hR1, hR2]
        ring
      · simp only [chainEvalL, List.map_cons, List.sum_cons] at hL2 ⊢
        rw [hL1, hL2]
        ring
      · intro t ht1 ht2
        have g1 := hint1 t ht1 ht2
        have g2 := hint2 t ht1 ht2
        constructor
        · simp only [chainEvalR, List.map_cons, List.sum_cons] at g2 ⊢
          rw [g1.1, g2.1]
          ring
        · simp only [chainEvalL, List.map_cons, List.sum_cons] at g2 ⊢
          rw [g1.2, g2.2]
          ring

/-- After the zero-crossing pass, no adjacent pair of the final breakpoints
samples strictly opposite speeds: any residual sign change inside an interval
would locate an analytic zero that the pass provably inserted, contradicting
adjacency. -/
theorem finalPts_no_sign_change (r : BpmList) (rpe : List RPEEventLayer) (m : ℚ) :
    ∀ pq ∈ adjPairs (finalPts r rpe m),
      ¬ strictlyOpposite (chainEvalR (scaledLayers r rpe) pq.1)
        (chainEvalL (scaledLayers r rpe) pq.2) := by
  intro pq hpq hopp
  obtain ⟨p, q⟩ := pq
  have hs1 := sorted_origPts r rpe m
  have hs2 := sorted_finalPts r rpe m
  have hpq' : p < q := adjPairs_lt _ hs2 (p, q) hpq
  have hpP2 : p ∈ finalPts r rpe m := (adjPairs_mem _ _ hpq).1
  have hqP2 : q ∈ finalPts r rpe m := (adjPairs_mem _ _ hpq).2
  have hno : ∀ z ∈ origPts r rpe m, z ≤ p ∨ q ≤ z := by
    intro z hz
    have hzP2 : z ∈ finalPts r rpe m := (mem_finalPts r rpe m z).mpr (Or.inl hz)
    have hnb := adjPairs_not_between _ hs2 (p, q) hpq z hzP2
    by_contra hcon
    push_neg at hcon
    exact hnb ⟨hcon.1, hcon.2⟩
  obtain ⟨⟨a0, ha0, ha0p⟩, -⟩ := mem_finalPts_exists_below r rpe m p hpP2
  obtain ⟨-, b0, hb0, hqb0⟩ := mem_finalPts_exists_below r rpe m q hqP2
  obtain ⟨ab, hab, hap, hqb⟩ :=
    find_enclosing _ hs1 p q hpq' hno ⟨a0, ha0, ha0p⟩ ⟨b0, hb0, hqb0⟩
  obtain ⟨a, b⟩ := ab
  have haab : a < b := adjPairs_lt _ hs1 (a, b) hab
  have hkf : ∀ l ∈ scaledLayers r rpe, ∀ k ∈ l, k.time ≤ a ∨ b ≤ k.time := by
    intro l hl k hk
    have hkt : k.time ∈ origPts r rpe m := scaledLayers_times r rpe m l hl k hk
    have hnb := adjPairs_not_between _ hs1 (a, b) hab k.time hkt
    by_contra hcon
    push_neg at hcon
    exact hnb ⟨hcon.1, hcon.2⟩
  obtain ⟨A, B, hRa, hLb, hint⟩ :=
    chain_affine a b haab (scaledLayers r rpe) (scaledLayers_tweens r rpe) hkf
  have hs' : chainEvalR (scaledLayers r rpe) p = A + B * p := by
    rcases eq_or_lt_of_le hap with h | h
    · rw [← h]; exact hRa
    · exact (hint p h (lt_of_lt_of_le hpq' hqb)).1
  have he' : chainEvalL (scaledLayers r rpe) q = A + B * q := by
    rcases eq_or_lt_of_le hqb with h | h
    · rw [h]; exact hLb
    · exact (hint q (lt_of_le_of_lt hap hpq') h).2
  rw [strictlyOpposite, hs', he'] at hopp
  have hzmem : ∀ (hcond : rustSignum (chainEvalR (scaledLayers r rpe) a) *
      rustSignum (chainEvalL (scaledLayers r rpe) b) < 0),
      lerp a b (chainEvalR (scaledLayers r rpe) a /
        (chainEvalR (scaledLayers r rpe) a - chainEvalL (scaledLayers r rpe) b)) ∈
          insertedPts (scaledLayers r rpe) (origPts r rpe m) := by
    intro hcond
    rw [insertedPts, List.mem_filterMap]
    exact ⟨(a, b), hab, by rw [if_pos hcond]⟩
  have hnb2 := adjPairs_not_between _ hs2 (p, q) hpq
  rcases hopp with ⟨hneg, hpos⟩ | ⟨hpos, hneg⟩
  · -- A + B p < 0 < A + B q, so B > 0
    have hB : 0 < B := by nlinarith
    have hsa_neg : chainEvalR (scaledLayers r rpe) a < 0 := by
      rw [hRa]
      nlinarith [mul_le_mul_of_nonneg_left hap hB.le]
    have heb_pos : 0 < chainEvalL (scaledLayers r rpe) b := by
      rw [hLb]
      nlinarith [mul_le_mul_of_nonneg_left hqb hB.le]
    have hcond : rustSignum (chainEvalR (scaledLayers r rpe) a) *
        rustSignum (chainEvalL (scaledLayers r rpe) b) < 0 := by
      rw [rustSignum, rustSignum, if_pos hsa_neg, if_neg (not_lt.mpr heb_pos.le)]
      norm_num
    have hzval : lerp a b (chainEvalR (scaledLayers r rpe) a /
        (chainEvalR (scaledLayers r rpe) a - chainEvalL (scaledLayers r rpe) b)) =
          (-A) / B := by
      rw [hRa, hLb, lerp]
      have hd : A + B * a - (A + B * b) = B * (a - b) := by ring
      have hBne : B ≠ 0 := hB.ne'
      have habne : a - b ≠ 0 := sub_ne_zero.mpr haab.ne
      rw [hd]
      field_simp
      ring
    have ht0mem : (-A) / B ∈ finalPts r rpe m :=
      (mem_finalPts r rpe m _).mpr (Or.inr (hzval ▸ hzmem hcond))
    have ht0p : p < (-A) / B := by
      rw [lt_div_iff hB]
      linarith
    have ht0q : (-A) / B < q := by
      rw [div_lt_iff hB]
      linarith
    exact hnb2 _ ht0mem ⟨ht0p, ht0q⟩
  · -- A + B p > 0 > A + B q, so B < 0
    have hB : B < 0 := by nlinarith
    have hsa_pos : 0 < chainEvalR (scaledLayers r rpe) a := by
      rw [hRa]
      nlinarith [mul_le_mul_of_nonpos_left hap hB.le]
    have heb_neg : chainEvalL (scaledLayers r rpe) b < 0 := by
      rw [hLb]
      nlinarith [mul_le_mul_of_nonpos_left hqb hB.le]
    have hcond : rustSignum (chainEvalR (scaledLayers r rpe) a) *
        rustSignum (chainEvalL (scaledLayers r rpe) b) < 0 := by
      rw [rustSignum, rustSignum, if_neg (not_lt.mpr hsa_pos.le), if_pos heb_neg]
      norm_num
    have hzval : lerp a b (chainEvalR (scaledLayers r rpe) a /
        (chainEvalR (scaledLayers r rpe) a - chainEvalL (scaledLayers r rpe) b)) =
          (-A) / B := by
      rw [hRa, hLb, lerp]
      have hd : A + B * a - (A + B * b) = B * (a - b) := by ring
      have hBne : B ≠ 0 := hB.ne
      have habne : a - b ≠ 0 := sub_ne_zero.mpr haab.ne
      rw [hd]
      field_simp
      ring
    have ht0mem : (-A) / B ∈ finalPts r rpe m :=
      (mem_finalPts r rpe m _).mpr (Or.inr (hzval ▸ hzmem hcond))
    have ht0p : p < (-A) / B := by
      rw [lt_div_iff_of_neg hB]
      linarith
    have ht0q : (-A) / B < q := by
      rw [div_lt_iff_of_neg hB]
      linarith
    exact hnb2 _ ht0mem ⟨ht0p, ht0q⟩

/-- Claim C2: (1) every adjacent breakpoint pair whose sampled right-limit
start speed and left-limit end speed have strictly opposite signs gets its
analytic linear zero crossing `t_start + (t_end - t_start) * s / (s - e)`
inserted into the final breakpoints; (2) in the final breakpoint sequence no
interval's sampled speeds are strictly opposite; (3) for a speed curve linear
from 2 to -2 over `[0, 1]` seconds a breakpoint appears at `t = 1/2` (absent
from the original breakpoints), and the displacement curve satisfies
`height(0) = 0` and `height(1) = 0`. -/
theorem claim_C2 :
    (∀ (r : BpmList) (rpe : List RPEEventLayer) (m : ℚ),
      ∀ pq ∈ adjPairs (origPts r rpe m),
        strictlyOpposite (chainEvalR (scaledLayers r rpe) pq.1)
          (chainEvalL (scaledLayers r rpe) pq.2) →
        lerp pq.1 pq.2 (chainEvalR (scaledLayers r rpe) pq.1 /
          (chainEvalR (scaledLayers r rpe) pq.1 - chainEvalL (scaledLayers r rpe) pq.2)) ∈
            finalPts r rpe m) ∧
    (∀ (r : BpmList) (rpe : List RPEEventLayer) (m : ℚ),
      ∀ pq ∈ adjPairs (finalPts r rpe m),
        ¬ strictlyOpposite (chainEvalR (scaledLayers r rpe) pq.1)
          (chainEvalL (scaledLayers r rpe) pq.2)) ∧
    ((1/2 : ℚ) ∈ finalPts bpm60 [scnLayer] 1 ∧
      (1/2 : ℚ) ∉ origPts bpm60 [scnLayer] 1 ∧
      evalR (parse_speed_events bpm60 [scnLayer] 1) 0 = 0 ∧
      evalR (parse_speed_events bpm60 [scnLayer] 1) 1 = 0) := by
  have hop : origPts bpm60 [scnLayer] 1 = [0, 1] := by
    norm_num [origPts, speedLayers, speedLayerKfs, bpm60, scnLayer, scnEvent, Triple.beats,
      BpmList.timeBeats, timeBeatsFrom, dedupAdj, Function.comp_def, List.filterMap_cons,
      List.filterMap_nil]
  have hfp : finalPts bpm60 [scnLayer] 1 = [0, 1/2, 1] := by
    norm_num [finalPts, origPts, speedLayers, speedLayerKfs, bpm60, scnLayer, scnEvent,
      Triple.beats, BpmList.timeBeats, timeBeatsFrom, dedupAdj, insertedPts, scaledLayers,
      scaleKfs, speed_ratio, height_ratio, adjPairs, chainEvalR, chainEvalL, evalR, evalL,
      interp, Tween.eval, baseTween, rustSignum, lerp, Function.comp_def, List.filterMap_cons,
      List.filterMap_nil]
  have hout : parse_speed_events bpm60 [scnLayer] 1 =
      [⟨0, 0, .clamped 7 0 1⟩, ⟨1/2, 2/15, .clamped 6 0 1⟩, ⟨1, 0, .static 0⟩] := by
    have habs : |(8:ℚ)/15| = 8/15 := abs_of_nonneg (by norm_num)
    have habs2 : |(-8:ℚ)/15| = 8/15 := by rw [abs_div]; norm_num
    norm_num [habs, habs2, parse_speed_events, finalPts, origPts, speedLayers, speedLayerKfs,
      bpm60, scnLayer, scnEvent, Triple.beats, BpmList.timeBeats, timeBeatsFrom, dedupAdj,
      insertedPts, scaledLayers, scaleKfs, speed_ratio, height_ratio, adjPairs, chainEvalR,
      chainEvalL, evalR, evalL, interp, Tween.eval, baseTween, rustSignum, lerp,
      Function.comp_def, List.filterMap_cons, List.filterMap_nil, heightKfs, EPS]
  refine ⟨?_, finalPts_no_sign_change, ?_, ?_, ?_, ?_⟩
  · intro r rpe m pq hpq hso
    have hcond : rustSignum (chainEvalR (scaledLayers r rpe) pq.1) *
        rustSignum (chainEvalL (scaledLayers r rpe) pq.2) < 0 := by
      rcases hso with ⟨h1, h2⟩ | ⟨h1, h2⟩
      · rw [rustSignum, rustSignum, if_pos h1, if_neg (not_lt.mpr h2.le)]
        norm_num
      · rw [rustSignum, rustSignum, if_neg (not_lt.mpr h1.le), if_pos h2]
        norm_num
    rw [mem_finalPts]
    right
    rw [insertedPts, List.mem_filterMap]
    exact ⟨pq, hpq, by rw [if_pos hcond]⟩
  · rw [hfp]
    norm_num
  · rw [hop]
    norm_num
  · rw [hout]
    norm_num [evalR, interp, Tween.eval, baseTween]
  · rw [hout]
    norm_num [evalR, interp, Tween.eval, baseTween]

/-- Witness for C2: the scenario interval `(0, 1)` has strictly opposite
sampled speeds and the insertion rule of `claim_C2` places its zero crossing
among the final breakpoints. -/
theorem claim_C2_witness :
    strictlyOpposite (chainEvalR (scaledLayers bpm60 [scnLayer]) 0)
      (chainEvalL (scaledLayers bpm60 [scnLayer]) 1) ∧
    lerp 0 1 (chainEvalR (scaledLayers bpm60 [scnLayer]) 0 /
      (chainEvalR (scaledLayers bpm60 [scnLayer]) 0 -
        chainEvalL (scaledLayers bpm60 [scnLayer]) 1)) ∈
      finalPts bpm60 [scnLayer] 1 := by
  have hR : chainEvalR (scaledLayers bpm60 [scnLayer]) 0 = 8/15 := by
    norm_num [scaledLayers, speedLayers, speedLayerKfs, bpm60, scnLayer, scnEvent, Triple.beats,
      BpmList.timeBeats, timeBeatsFrom, scaleKfs, speed_ratio, height_ratio, chainEvalR, evalR,
      interp, Tween.eval, baseTween, Function.comp_def, List.filterMap_cons, List.filterMap_nil]
  have hL : chainEvalL (scaledLayers bpm60 [scnLayer]) 1 = -(8/15) := by
    norm_num [scaledLayers, speedLayers, speedLayerKfs, bpm60, scnLayer, scnEvent, Triple.beats,
      BpmList.timeBeats, timeBeatsFrom, scaleKfs, speed_ratio, height_ratio, chainEvalL, evalL,
      interp, Tween.eval, baseTween, Function.comp_def, List.filterMap_cons, List.filterMap_nil]
  have hop : origPts bpm60 [scnLayer] 1 = [0, 1] := by
    norm_num [origPts, speedLayers, speedLayerKfs, bpm60, scnLayer, scnEvent, Triple.beats,
      BpmList.timeBeats, timeBeatsFrom, dedupAdj, Function.comp_def, List.filterMap_cons,
      List.filterMap_nil]
  have hmem : ((0:ℚ), (1:ℚ)) ∈ adjPairs (origPts bpm60 [scnLayer] 1) := by
    rw [hop]
    simp [adjPairs]
  have hso : strictlyOpposite (chainEvalR (scaledLayers bpm60 [scnLayer]) 0)
      (chainEvalL (scaledLayers bpm60 [scnLayer]) 1) := by
    rw [strictlyOpposite, hR, hL]
    norm_num
  exact ⟨hso, claim_C2.1 bpm60 [scnLayer] 1 (0, 1) hmem hso⟩
